import Mathlib

/-!
A shallow embedding of the HL7 message processor (`hl7.py`) and proofs about it.

Strings are modelled as `List Char`. Python values flowing through the embedded
list structure (`self.elist`) are either strings or nested lists, modelled by the
nested inductive `Pv`. Python dicts are modelled as insertion-ordered association
lists where inserting an existing key replaces its value in place, matching
Python's dict semantics.

Python's `str.splitlines` also breaks on `\r` and a few other control
characters; the embedding splits on `\n` only, and the well-formedness
predicate used by the round-trip theorems excludes the other terminator
characters so that the model agrees with the source on the whole domain
of those theorems.
-/

/-- The characters of a string literal, for readable concrete inputs. -/
def chars (s : String) : List Char := s.data

/-- Python's `str.split(sep)` for a single-character separator: splitting the
empty string yields `[""]`, and `n` separators yield `n+1` (possibly empty) parts. -/
def pysplit (sep : Char) : List Char → List (List Char)
  | [] => [[]]
  | c :: cs =>
    if c = sep then [] :: pysplit sep cs
    else (c :: (pysplit sep cs).headI) :: (pysplit sep cs).tail

/-- `sep.join(parts)`: the inverse of `pysplit` used to reason about splitting. -/
def joinSep (sep : Char) : List (List Char) → List Char
  | [] => []
  | [a] => a
  | a :: b :: rest => a ++ sep :: joinSep sep (b :: rest)

/-- Python's `str.splitlines()` restricted to `\n`-terminated text: a trailing
newline does not produce a trailing empty line, and `"".splitlines() == []`. -/
def splitLines (s : List Char) : List (List Char) :=
  if s = [] then []
  else if s.getLast? = some '\n' then (pysplit '\n' s).dropLast else pysplit '\n' s

/-- Remove a single trailing newline: the exact relation between the serializer
output and the original raw text ("modulo trailing whitespace"). -/
def stripNl (s : List Char) : List Char :=
  if s.getLast? = some '\n' then s.dropLast else s

/-- Whitespace characters stripped by Python's `str.strip()`. -/
def wsChars : List Char := [' ', '\t', '\n', '\r', '\x0b', '\x0c']

/-- Python's `str.strip()` (as used on the message text in `__init__`). -/
def pystrip (s : List Char) : List Char :=
  ((s.dropWhile (· ∈ wsChars)).reverse.dropWhile (· ∈ wsChars)).reverse

/-- Decimal digits of `n`, produced with an explicit fuel argument so that the
recursion is structural and kernel-reducible; `natRepr` below supplies enough
fuel. Mirrors Python's `str(int)` for the f-string suffixes and dict paths. -/
def natReprAux : Nat → Nat → List Char
  | 0, _ => []
  | fuel + 1, n =>
    if n < 10 then [Nat.digitChar n]
    else natReprAux fuel (n / 10) ++ [Nat.digitChar (n % 10)]

/-- Decimal representation of a natural number, e.g. `natRepr 12 = ['1','2']`. -/
def natRepr (n : Nat) : List Char := natReprAux (n + 1) n

/-- Python's `int()` on a decimal digit string (as applied to dict-key parts). -/
def charsToNat (s : List Char) : Nat :=
  s.foldl (fun a c => a * 10 + (c.toNat - 48)) 0

/-- A Python value stored in the embedded list: a string or a nested list.
`hl7.py` distinguishes the two cases with `isinstance(item, list)`. -/
inductive Pv where
  | s : List Char → Pv
  | l : List Pv → Pv

mutual
def pvDecEq : (a b : Pv) → Decidable (a = b)
  | Pv.s x, Pv.s y =>
    match decEq x y with
    | isTrue h => isTrue (by rw [h])
    | isFalse h => isFalse (fun hh => h (Pv.s.inj hh))
  | Pv.s _, Pv.l _ => isFalse (fun h => Pv.noConfusion h)
  | Pv.l _, Pv.s _ => isFalse (fun h => Pv.noConfusion h)
  | Pv.l xs, Pv.l ys =>
    match pvListDecEq xs ys with
    | isTrue h => isTrue (by rw [h])
    | isFalse h => isFalse (fun hh => h (Pv.l.inj hh))
def pvListDecEq : (a b : List Pv) → Decidable (a = b)
  | [], [] => isTrue rfl
  | [], _ :: _ => isFalse (fun h => List.noConfusion h)
  | _ :: _, [] => isFalse (fun h => List.noConfusion h)
  | x :: xs, y :: ys =>
    match pvDecEq x y, pvListDecEq xs ys with
    | isTrue h1, isTrue h2 => isTrue (by rw [h1, h2])
    | isFalse h1, _ => isFalse (fun hh => h1 (List.cons.inj hh).1)
    | _, isFalse h2 => isFalse (fun hh => h2 (List.cons.inj hh).2)
end

instance : DecidableEq Pv := pvDecEq

/-- The literal encoding-characters token `^~\&` special-cased by the parser. -/
def encChars : List Char := ['^', '~', '\\', '&']

/-- One field of a segment line, parsed as in `hl7_to_list` (`hl7.py` lines
64-79): the encoding-characters literal contributes the two items
`['|', '^~\&']`; a field containing `~` becomes a list of repetitions, each a
list of components; a field containing `^` becomes a list of components; any
other field is kept as a single string item. -/
def parseField (f : List Char) : List Pv :=
  if f = encChars then [Pv.s ['|'], Pv.s encChars]
  else if '~' ∈ f then
    [Pv.l ((pysplit '~' f).map (fun rep => Pv.l ((pysplit '^' rep).map Pv.s)))]
  else if (pysplit '^' f).length = 1 then (pysplit '^' f).map Pv.s
  else [Pv.l ((pysplit '^' f).map Pv.s)]

/-- The segment identifier of a line: `segment.split('|')` then `pop(0)`. -/
def segIdOf (line : List Char) : List Char := (pysplit '|' line).headI

/-- The fields of a line: what remains of `segment.split('|')` after the pop. -/
def segFields (line : List Char) : List (List Char) := (pysplit '|' line).tail

/-- The item list accumulated for one segment line by `hl7_to_list`. -/
def parseSegBody (line : List Char) : List Pv := (segFields line).flatMap parseField

/-- `hl7_to_list`: the embedded list built from the raw message text. -/
def hl7ToList (text : List Char) : List Pv :=
  (splitLines text).map (fun line => Pv.l (parseSegBody line))

/-- The raw segment identifiers collected by `hl7_to_list` before `_sort_segments`. -/
def rawSegIds (text : List Char) : List (List Char) := (splitLines text).map segIdOf

/-- Lookup in the `seen` dictionary of `_sort_segments`. -/
def lookupA : List (List Char × Nat) → List Char → Option Nat
  | [], _ => none
  | (k, n) :: rest, id => if k = id then some n else lookupA rest id

/-- In-place update of the `seen` dictionary of `_sort_segments`. -/
def setA : List (List Char × Nat) → List Char → Nat → List (List Char × Nat)
  | [], _, _ => []
  | (k, n) :: rest, id, v => if k = id then (k, v) :: rest else (k, n) :: setA rest id v

/-- The loop of `_sort_segments` (`hl7.py` lines 436-446): a first occurrence is
recorded with counter 0 and kept unchanged; a repeat increments the counter to
`k` and is renamed `<id>_k`. -/
def sortSegmentsAux : List (List Char) → List (List Char × Nat) → List (List Char)
  | [], _ => []
  | id :: rest, seen =>
    match lookupA seen id with
    | some n => (id ++ '_' :: natRepr (n + 1)) :: sortSegmentsAux rest (setA seen id (n + 1))
    | none => id :: sortSegmentsAux rest (seen ++ [(id, 0)])

/-- `_sort_segments` applied to the collected raw identifiers. -/
def sortSegments (ids : List (List Char)) : List (List Char) := sortSegmentsAux ids []

/-- `self._segments` after construction: the disambiguated segment table. -/
def segTable (text : List Char) : List (List Char) := sortSegments (rawSegIds text)

/-- The `separators` tuple `('', '\n', '|', '^', '~')` of `_gen_hl7`. Indices
beyond 4 would raise `IndexError` in Python; they are unreachable for the
tree shapes this library builds, and the model returns `[]` there. -/
def seps : Nat → List Char
  | 0 => []
  | 1 => ['\n']
  | 2 => ['|']
  | 3 => ['^']
  | 4 => ['~']
  | _ => []

/-- Separator appended after a leaf at a given depth in `_gen_hl7`
(`separators[depth+1] if depth < 3 else separators[depth]`). -/
def leafSep (d : Nat) : List Char := if d < 3 then seps (d + 1) else seps d

/-- Separator appended after trimming at the end of a `_gen_hl7` call
(`separators[depth] if depth < 3 else separators[depth+1]`). -/
def endSep (d : Nat) : List Char := if d < 3 then seps d else seps (d + 1)

mutual
/-- The contribution of one item in the `_gen_hl7` loop at a given depth, in
the `next_segment=True` regime: a list recurses one level deeper, a string
equal to `'|'` is skipped, any other string is emitted with its separator. -/
def genItem : Pv → Nat → List Char
  | Pv.l xs, d => (genList xs (d + 1)).dropLast ++ endSep (d + 1)
  | Pv.s v, d => if v = ['|'] then [] else v ++ leafSep d
/-- The `message` accumulated by the `_gen_hl7` loop over a list of items. -/
def genList : List Pv → Nat → List Char
  | [], _ => []
  | x :: r, d => genItem x d ++ genList r d
end

/-- A full recursive `_gen_hl7` call with `next_segment=True`: loop, then trim
the trailing separator and append the end-of-level separator. -/
def genHl7 (xs : List Pv) (d : Nat) : List Char := (genList xs d).dropLast ++ endSep d

/-- `x.split('_')[0]`: the disambiguation suffix stripped off before emission. -/
def stripUnder (id : List Char) : List Char := id.takeWhile (fun c => c != '_')

/-- The top-level `_gen_hl7` loop (depth 0, `next_segment=False`): each list
item emits a segment name taken from the table at the current pointer, and the
pointer advances while it is below the last index. -/
def genTopAux : List Pv → List (List Char) → Nat → List Char
  | [], _, _ => []
  | Pv.l xs :: rest, segs, p =>
    stripUnder (segs.getD p []) ++ '|' :: genHl7 xs 1 ++
      genTopAux rest segs (if p < segs.length - 1 then p + 1 else p)
  | Pv.s v :: rest, segs, p =>
    (if v = ['|'] then [] else v ++ leafSep 0) ++ genTopAux rest segs p

/-- `_gen_hl7(self.elist)`: the serialized message (`list_to_hl7`). -/
def genHl7Top (segs : List (List Char)) (elist : List Pv) : List Char :=
  (genTopAux elist segs 0).dropLast ++ endSep 0

mutual
/-- `_gen_dict` on a single value: a string becomes the one pair
`(path, value)`; a list recurses with 1-based path extensions (or the segment
table entry at the top level, where the path is empty). -/
def genDictPv (segs : List (List Char)) : Pv → List Char → List (List Char × List Char)
  | Pv.s v, path => [(path, v)]
  | Pv.l xs, path => genDictList segs xs path 0
def genDictList (segs : List (List Char)) :
    List Pv → List Char → Nat → List (List Char × List Char)
  | [], _, _ => []
  | x :: rest, path, i =>
    genDictPv segs x (if path = [] then segs.getD i [] else path ++ '.' :: natRepr (i + 1)) ++
      genDictList segs rest path (i + 1)
end

/-- Insertion into a Python dict: an existing key keeps its position and gets
the new value; a fresh key is appended at the end. -/
def insertReplace {α β : Type} [DecidableEq α] : List (α × β) → α → β → List (α × β)
  | [], k, v => [(k, v)]
  | (k0, v0) :: rest, k, v =>
    if k0 = k then (k0, v) :: rest else (k0, v0) :: insertReplace rest k v

/-- Sequentially inserting a pair list into an empty Python dict: the net
effect of the nested `dict.update` calls in `_gen_dict`. -/
def dictFromPairs {α β : Type} [DecidableEq α] (ps : List (α × β)) : List (α × β) :=
  ps.foldl (fun d kv => insertReplace d kv.1 kv.2) []

/-- `self.dict` as built by `list_to_dict` from the parsed message. -/
def hl7Dict (text : List Char) : List (List Char × List Char) :=
  dictFromPairs (genDictPv (segTable text) (Pv.l (hl7ToList text)) [])

/-- The rolling state of the `dict_to_list` loop: the per-segment accumulator
dict and the open buffers with their bookkeeping variables. -/
structure DState where
  segments : List (List Char × List Pv)
  subfield_list : List (List Char)
  repeats : List (List Char)
  repeats_list : List (List (List Char))
  prev_segment : List Char
  prev_depth : Nat
  prev_sub_pos : Nat
  prev_rep_pos : Nat

/-- `segments[k].append(v)`. Python raises `KeyError` when `k` is absent; that
situation is unreachable in the traces considered here, and the model then
appends a fresh entry. -/
def appendSeg (segs : List (List Char × List Pv)) (k : List Char) (v : Pv) :
    List (List Char × List Pv) :=
  match segs with
  | [] => [(k, [v])]
  | (k0, xs) :: rest => if k0 = k then (k0, xs ++ [v]) :: rest else (k0, xs) :: appendSeg rest k v

/-- `if segment_id not in segments: segments[segment_id] = []`. -/
def ensureSeg (segs : List (List Char × List Pv)) (k : List Char) :
    List (List Char × List Pv) :=
  if (segs.map Prod.fst).contains k then segs else segs ++ [(k, [])]

/-- The component buffer flushed as an item: `list` of strings. -/
def subToPv (sl : List (List Char)) : Pv := Pv.l (sl.map Pv.s)

/-- The repetition-group buffer flushed as an item: `list` of lists of strings. -/
def repsToPv (rl : List (List (List Char))) : Pv :=
  Pv.l (rl.map (fun r => Pv.l (r.map Pv.s)))

/-- One iteration of the `dict_to_list` loop (`hl7.py` lines 146-240) on the
entry `(key, value)`; `isLast` is the `count == dict_size` test that triggers
the end-of-dictionary flush inside the same iteration. -/
def dictToListStep (st : DState) (key value : List Char) (isLast : Bool) : DState :=
  let parts := pysplit '.' key
  let segment_id := parts.headI
  let current_depth := parts.length - 1
  let segs1 := ensureSeg st.segments segment_id
  let st1 : DState :=
    if current_depth = st.prev_depth then
      match current_depth with
      | 1 => { st with segments := appendSeg segs1 segment_id (Pv.s value) }
      | 2 =>
        let fi := charsToNat (parts.getD 1 [])
        if st.prev_sub_pos < fi then
          { st with segments := appendSeg segs1 segment_id (subToPv st.subfield_list),
                    subfield_list := [value], prev_sub_pos := fi }
        else { st with segments := segs1, subfield_list := st.subfield_list ++ [value] }
      | 3 =>
        let ri := charsToNat (parts.getD 2 [])
        if st.prev_rep_pos < ri then
          { st with segments := segs1, repeats_list := st.repeats_list ++ [st.repeats],
                    repeats := [value], prev_rep_pos := ri }
        else { st with segments := segs1, repeats := st.repeats ++ [value] }
      | _ => { st with segments := segs1 }
    else if st.prev_depth < current_depth then
      match current_depth with
      | 2 =>
        { st with segments := segs1, subfield_list := st.subfield_list ++ [value],
                  prev_sub_pos := charsToNat (parts.getD 1 []) }
      | 3 =>
        let segs2 :=
          if st.subfield_list ≠ [] then appendSeg segs1 segment_id (subToPv st.subfield_list)
          else segs1
        { st with segments := segs2, subfield_list := [],
                  repeats := st.repeats ++ [value],
                  prev_rep_pos := charsToNat (parts.getD 2 []) }
      | _ => { st with segments := segs1 }
    else
      match current_depth with
      | 1 =>
        let stepA :=
          if st.repeats_list ≠ [] then
            let rl2 := if st.repeats ≠ [] then st.repeats_list ++ [st.repeats] else st.repeats_list
            (appendSeg segs1 segment_id (repsToPv rl2), ([] : List (List (List Char))),
              ([] : List (List Char)), 1)
          else (segs1, st.repeats_list, st.repeats, st.prev_rep_pos)
        let tgt := if segment_id ≠ st.prev_segment then st.prev_segment else segment_id
        let stepB :=
          if st.subfield_list ≠ [] then
            (appendSeg stepA.1 tgt (subToPv st.subfield_list), ([] : List (List Char)), 1)
          else (stepA.1, st.subfield_list, st.prev_sub_pos)
        { st with segments := appendSeg stepB.1 segment_id (Pv.s value),
                  repeats_list := stepA.2.1, repeats := stepA.2.2.1, prev_rep_pos := stepA.2.2.2,
                  subfield_list := stepB.2.1, prev_sub_pos := stepB.2.2 }
      | 2 =>
        let rl2 := if st.repeats ≠ [] then st.repeats_list ++ [st.repeats] else st.repeats_list
        { st with segments := appendSeg segs1 segment_id (repsToPv rl2),
                  subfield_list := st.subfield_list ++ [value],
                  prev_sub_pos := charsToNat (parts.getD 1 []),
                  repeats_list := [], repeats := [], prev_rep_pos := 1 }
      | _ => { st with segments := segs1 }
  let st2 :=
    if isLast then
      let stA :=
        if st1.repeats_list ≠ [] then
          let rl2 := if st1.repeats ≠ [] then st1.repeats_list ++ [st1.repeats] else st1.repeats_list
          { st1 with segments := appendSeg st1.segments segment_id (repsToPv rl2),
                     repeats_list := [], repeats := [], prev_rep_pos := 1 }
        else st1
      if stA.subfield_list ≠ [] then
        let tgt := if segment_id ≠ st.prev_segment then st.prev_segment else segment_id
        { stA with segments := appendSeg stA.segments tgt (subToPv stA.subfield_list),
                   subfield_list := [], prev_sub_pos := 1 }
      else stA
    else st1
  { st2 with prev_segment := segment_id, prev_depth := current_depth }

/-- The `dict_to_list` loop over the dictionary entries in insertion order. -/
def dictToListAux : DState → List (List Char × List Char) → DState
  | st, [] => st
  | st, (k, v) :: rest => dictToListAux (dictToListStep st k v rest.isEmpty) rest

/-- The initial state of the `dict_to_list` loop. -/
def dictToListInit : DState := ⟨[], [], [], [], [], 1, 1, 1⟩

/-- `dict_to_list`: rebuild the embedded list from the dictionary form; the
result lists the per-segment accumulators in insertion order. -/
def dict_to_list (d : List (List Char × List Char)) : List Pv :=
  (dictToListAux dictToListInit d).segments.map (fun kv => Pv.l kv.2)

mutual
/-- `_gen_json` on a single value: lists gain an empty-string placeholder at
index 0, strings pass through. -/
def genJsonPv : Pv → Pv
  | Pv.s v => Pv.s v
  | Pv.l xs => Pv.l (Pv.s [] :: genJsonList xs)
def genJsonList : List Pv → List Pv
  | [] => []
  | x :: r => genJsonPv x :: genJsonList r
end

/-- The value stored for one segment by `list_to_json`: `dictionary[segment]`
is set to `[]` then extended with `_gen_json(item)`. Extending with a string
would iterate over its characters, which the model reproduces. -/
def jsonValItems : Pv → List Pv
  | Pv.l xs => Pv.s [] :: genJsonList xs
  | Pv.s v => v.map (fun c => Pv.s [c])

/-- The `list_to_json` loop: one dict entry per embedded-list item, keyed by
the segment table entry at the moving pointer. -/
def listToJsonAux : List Pv → List (List Char) → Nat → List (List Char × List Pv) →
    List (List Char × List Pv)
  | [], _, _, dict => dict
  | item :: rest, segs, p, dict =>
    listToJsonAux rest segs (p + 1) (insertReplace dict (segs.getD p []) (jsonValItems item))

/-- `list_to_json`: the JSON-form dictionary built from the embedded list. -/
def list_to_json (segs : List (List Char)) (elist : List Pv) :
    List (List Char × List Pv) :=
  listToJsonAux elist segs 0 []

mutual
/-- The `remove_fillers` lambda of `json_to_list` on one item: strings pass
through, a list drops its first element (the placeholder) and recurses. -/
def rfPv : Pv → Pv
  | Pv.s v => Pv.s v
  | Pv.l [] => Pv.l []
  | Pv.l (_ :: ys) => Pv.l (rfList ys)
def rfList : List Pv → List Pv
  | [] => []
  | x :: r => rfPv x :: rfList r
end

/-- `json_to_list`: collect the dict values and strip the placeholders. -/
def json_to_list (j : List (List Char × List Pv)) : List Pv :=
  rfList (j.map (fun kv => Pv.l kv.2))

mutual
/-- The number of string leaves below a value. -/
def countLeavesPv : Pv → Nat
  | Pv.s _ => 1
  | Pv.l xs => countLeavesList xs
def countLeavesList : List Pv → Nat
  | [] => 0
  | x :: r => countLeavesPv x + countLeavesList r
end

/-- The number of string leaves in an embedded list. -/
def countLeaves (elist : List Pv) : Nat := countLeavesList elist

/-- The state of an `HL7` object: the attributes assigned in `__init__` plus
`self.hl7`, which exists only after `list_to_hl7` has run. -/
structure HL7Obj where
  hl7_message : List Char
  segments : List (List Char)
  elist : List Pv
  dict : List (List Char × List Char)
  json : List (List Char × List Pv)
  hl7 : Option (List Char)

/-- `HL7.__init__`: strip the stored raw text, parse, and derive the
dictionary and JSON views. -/
def HL7.new (text : List Char) : HL7Obj :=
  { hl7_message := pystrip text
    segments := segTable text
    elist := hl7ToList text
    dict := hl7Dict text
    json := list_to_json (segTable text) (hl7ToList text)
    hl7 := none }

/-- The `json_to_list` method: it only reads `self.json` and returns the
reconstructed list; no attribute of the object is assigned. -/
def HL7.jsonToList (o : HL7Obj) : HL7Obj × List Pv := (o, json_to_list o.json)

/-- The `list_to_hl7` method: serializes the stored `self.elist` into
`self.hl7`; no other attribute is assigned. -/
def HL7.listToHl7 (o : HL7Obj) : HL7Obj :=
  { o with hl7 := some (genHl7Top o.segments o.elist) }

/-- Well-formedness of a raw message for the round-trip theorems: the text
uses only `\n` as a line terminator (none of the other characters Python's
`splitlines` breaks on occur), every line contains a field delimiter, and no
segment identifier contains an underscore (the serializer strips everything
from the first `_`, and identifiers containing `_` can defeat disambiguation). -/
def lineTermChars : List Char := ['\r', '\x0b', '\x0c', '\x1c', '\x1d', '\x1e', '\x85', '\u2028', '\u2029']

def wellFormed (text : List Char) : Prop :=
  (∀ c ∈ text, c ∉ lineTermChars) ∧
    ∀ line ∈ splitLines text, 2 ≤ (pysplit '|' line).length ∧ '_' ∉ segIdOf line

instance (text : List Char) : Decidable (wellFormed text) := by
  unfold wellFormed; infer_instance

/-- The disambiguation policy stated by the spec, as a count-based recursion:
an identifier not seen in the processed prefix is kept; the k-th repeat is
renamed `<id>_k`. Used to characterize `sortSegments`. -/
def renameFrom (pre : List (List Char)) : List (List Char) → List (List Char)
  | [] => []
  | id :: rest =>
    (if pre.count id = 0 then id else id ++ '_' :: natRepr (pre.count id)) ::
      renameFrom (pre ++ [id]) rest

/-! ### Basic properties of `pysplit`, `joinSep` and `natRepr` -/

theorem pysplit_ne_nil (sep : Char) (xs : List Char) : pysplit sep xs ≠ [] := by
  cases xs with
  | nil => simp [pysplit]
  | cons c cs => simp only [pysplit]; split <;> simp

theorem pysplit_eq_cons (sep : Char) (xs : List Char) :
    pysplit sep xs = (pysplit sep xs).headI :: (pysplit sep xs).tail := by
  cases h : pysplit sep xs with
  | nil => exact absurd h (pysplit_ne_nil sep xs)
  | cons a t => rfl

theorem joinSep_cons (sep : Char) (a : List Char) (t : List (List Char)) (h : t ≠ []) :
    joinSep sep (a :: t) = a ++ sep :: joinSep sep t := by
  cases t with
  | nil => exact absurd rfl h
  | cons b r => rfl

theorem joinSep_pysplit (sep : Char) (xs : List Char) : joinSep sep (pysplit sep xs) = xs := by
  induction xs with
  | nil => rfl
  | cons c cs ih =>
    simp only [pysplit]
    by_cases hc : c = sep
    · subst hc
      rw [if_pos rfl, joinSep_cons _ _ _ (pysplit_ne_nil _ cs), ih]
      rfl
    · rw [if_neg hc]
      cases h : pysplit sep cs with
      | nil => exact absurd h (pysplit_ne_nil sep cs)
      | cons a t =>
        rw [h] at ih
        simp only [List.headI, List.tail]
        cases t with
        | nil =>
          have ha : a = cs := ih
          subst ha
          rfl
        | cons b r =>
          rw [joinSep_cons _ _ _ (by simp)]
          rw [joinSep_cons _ _ _ (by simp)] at ih
          rw [List.cons_append, ih]

theorem not_mem_of_mem_pysplit (sep a : Char) (xs : List Char) (hx : a ∉ xs) :
    ∀ f ∈ pysplit sep xs, a ∉ f := by
  induction xs with
  | nil => intro f hf; simp [pysplit] at hf; simp [hf]
  | cons c cs ih =>
    have hac : a ≠ c := fun h => hx (h ▸ List.mem_cons_self c cs)
    have hacs : a ∉ cs := fun h => hx (List.mem_cons_of_mem c h)
    intro f hf
    simp only [pysplit] at hf
    rcases pysplit_eq_cons sep cs with hsc
    split at hf
    · rcases List.mem_cons.mp hf with h | h
      · simp [h]
      · exact ih hacs f h
    · rcases List.mem_cons.mp hf with h | h
      · subst h
        intro hmem
        rcases List.mem_cons.mp hmem with h | h
        · exact hac h
        · exact ih hacs _ (by rw [hsc]; exact List.mem_cons_self _ _) h
      · exact ih hacs f (by rw [hsc]; exact List.mem_cons_of_mem _ h)

theorem sep_not_mem_pysplit (sep : Char) (xs : List Char) :
    ∀ f ∈ pysplit sep xs, sep ∉ f := by
  induction xs with
  | nil => intro f hf; simp [pysplit] at hf; simp [hf]
  | cons c cs ih =>
    intro f hf
    simp only [pysplit] at hf
    rcases pysplit_eq_cons sep cs with hsc
    split at hf
    · rcases List.mem_cons.mp hf with h | h
      · simp [h]
      · exact ih f h
    · rename_i hc
      rcases List.mem_cons.mp hf with h | h
      · subst h
        intro hmem
        rcases List.mem_cons.mp hmem with h | h
        · exact hc h.symm
        · exact ih _ (by rw [hsc]; exact List.mem_cons_self _ _) h
      · exact ih f (by rw [hsc]; exact List.mem_cons_of_mem _ h)

theorem pysplit_snoc_sep (sep : Char) (ys : List Char) :
    pysplit sep (ys ++ [sep]) = pysplit sep ys ++ [[]] := by
  induction ys with
  | nil => simp [pysplit]
  | cons c cs ih =>
    simp only [List.cons_append, pysplit, List.append_eq, ih]
    split
    · rfl
    · rcases pysplit_eq_cons sep cs with hsc
      rw [hsc]
      simp

theorem pysplit_len_one (sep : Char) (xs : List Char)
    (h : (pysplit sep xs).length = 1) : pysplit sep xs = [xs] := by
  cases hs : pysplit sep xs with
  | nil => exact absurd hs (pysplit_ne_nil sep xs)
  | cons a t =>
    cases t with
    | nil =>
      have := joinSep_pysplit sep xs
      rw [hs] at this
      simpa [joinSep] using congrArg (fun z => [z]) this
    | cons b r => rw [hs] at h; simp at h

theorem flatten_map_snoc (x : Char) (parts : List (List Char)) (h : parts ≠ []) :
    (parts.map (fun p => p ++ [x])).flatten = joinSep x parts ++ [x] := by
  induction parts with
  | nil => exact absurd rfl h
  | cons a t ih =>
    cases t with
    | nil => simp [joinSep]
    | cons b r =>
      have ih' := ih (by simp)
      rw [List.map_cons, List.flatten_cons, ih', joinSep_cons x a (b :: r) (by simp)]
      simp

/-! ### Decimal representation: characterization, digits, injectivity -/

theorem natReprAux_congr : ∀ (f1 f2 n : Nat), n < f1 → n < f2 →
    natReprAux f1 n = natReprAux f2 n := by
  intro f1
  induction f1 with
  | zero => intro f2 n h1; omega
  | succ g1 ih =>
    intro f2 n h1 h2
    cases f2 with
    | zero => omega
    | succ g2 =>
      simp only [natReprAux]
      split
      · rfl
      · rename_i hn
        have hd : n / 10 < n := Nat.div_lt_self (by omega) (by omega)
        rw [ih g2 (n / 10) (by omega) (by omega)]

theorem natRepr_eq (n : Nat) : natRepr n =
    if n < 10 then [Nat.digitChar n]
    else natRepr (n / 10) ++ [Nat.digitChar (n % 10)] := by
  show natReprAux (n + 1) n = _
  simp only [natReprAux]
  split
  · rfl
  · rename_i hn
    have hd : n / 10 < n := Nat.div_lt_self (by omega) (by omega)
    rw [natReprAux_congr n (n / 10 + 1) (n / 10) (by omega) (by omega)]
    rfl

theorem natRepr_ne_nil (n : Nat) : natRepr n ≠ [] := by
  rw [natRepr_eq]; split <;> simp

theorem digitChar_ne_under (d : Nat) (h : d < 10) : Nat.digitChar d ≠ '_' := by
  interval_cases d <;> decide

theorem digitChar_inj10 (a b : Nat) (ha : a < 10) (hb : b < 10)
    (h : Nat.digitChar a = Nat.digitChar b) : a = b := by
  interval_cases a <;> interval_cases b <;> revert h <;> decide

theorem natRepr_no_under (n : Nat) : '_' ∉ natRepr n := by
  induction n using Nat.strong_induction_on with
  | _ n ih =>
    rw [natRepr_eq]
    split
    · rename_i h
      simp only [List.mem_singleton]
      exact fun hh => digitChar_ne_under n h hh.symm
    · rename_i h
      rw [List.mem_append]
      push_neg
      constructor
      · exact ih (n / 10) (Nat.div_lt_self (by omega) (by omega))
      · simp only [List.mem_singleton]
        exact fun hh => digitChar_ne_under (n % 10) (Nat.mod_lt n (by omega)) hh.symm

theorem natRepr_inj : ∀ m n : Nat, natRepr m = natRepr n → m = n := by
  intro m
  induction m using Nat.strong_induction_on with
  | _ m ih =>
    intro n h
    rw [natRepr_eq m, natRepr_eq n] at h
    by_cases hm : m < 10 <;> by_cases hn : n < 10
    · rw [if_pos hm, if_pos hn] at h
      exact digitChar_inj10 m n hm hn (List.cons.inj h).1
    · rw [if_pos hm, if_neg hn] at h
      rcases hA : natRepr (n / 10) with _ | ⟨a, A⟩
      · exact absurd hA (natRepr_ne_nil _)
      · rw [hA] at h
        simp at h
    · rw [if_neg hm, if_pos hn] at h
      rcases hA : natRepr (m / 10) with _ | ⟨a, A⟩
      · exact absurd hA (natRepr_ne_nil _)
      · rw [hA] at h
        simp at h
    · rw [if_neg hm, if_neg hn] at h
      have h1 : natRepr (m / 10) = natRepr (n / 10) := by
        have := congrArg List.dropLast h
        simpa [List.dropLast_concat] using this
      have h2 : Nat.digitChar (m % 10) = Nat.digitChar (n % 10) := by
        have := congrArg List.getLast? h
        simpa [List.getLast?_concat] using this
      have hq : m / 10 = n / 10 :=
        ih (m / 10) (Nat.div_lt_self (by omega) (by omega)) (n / 10) h1
      have hr : m % 10 = n % 10 :=
        digitChar_inj10 _ _ (Nat.mod_lt m (by omega)) (Nat.mod_lt n (by omega)) h2
      omega

theorem under_append_inj : ∀ (a b x y : List Char), '_' ∉ a → '_' ∉ b →
    a ++ '_' :: x = b ++ '_' :: y → a = b ∧ x = y := by
  intro a
  induction a with
  | nil =>
    intro b x y _ hb h
    cases b with
    | nil => simpa using h
    | cons d b' =>
      rw [List.nil_append, List.cons_append] at h
      have hd : d = '_' := (List.cons.inj h).1.symm
      exact absurd (hd ▸ List.mem_cons_self d b') hb
  | cons c a' ih =>
    intro b x y ha hb h
    cases b with
    | nil =>
      rw [List.nil_append, List.cons_append] at h
      have hc : c = '_' := (List.cons.inj h).1
      exact absurd (hc ▸ List.mem_cons_self c a') ha
    | cons d b' =>
      rw [List.cons_append, List.cons_append] at h
      obtain ⟨hcd, hrest⟩ := List.cons.inj h
      have ha' : '_' ∉ a' := fun hh => ha (List.mem_cons_of_mem c hh)
      have hb' : '_' ∉ b' := fun hh => hb (List.mem_cons_of_mem d hh)
      obtain ⟨he, hxy⟩ := ih b' x y ha' hb' hrest
      exact ⟨by rw [hcd, he], hxy⟩

/-! ### `stripUnder` -/

theorem stripUnder_no_under (a : List Char) (h : '_' ∉ a) : stripUnder a = a := by
  induction a with
  | nil => rfl
  | cons c t ih =>
    have hc : c ≠ '_' := fun hh => h (hh ▸ List.mem_cons_self c t)
    have ht : '_' ∉ t := fun hh => h (List.mem_cons_of_mem c hh)
    simp only [stripUnder, List.takeWhile_cons]
    rw [if_pos (by simpa using hc)]
    exact congrArg (c :: ·) (ih ht)

theorem stripUnder_append_under (a r : List Char) (h : '_' ∉ a) :
    stripUnder (a ++ '_' :: r) = a := by
  induction a with
  | nil => simp [stripUnder, List.takeWhile_cons]
  | cons c t ih =>
    have hc : c ≠ '_' := fun hh => h (hh ▸ List.mem_cons_self c t)
    have ht : '_' ∉ t := fun hh => h (List.mem_cons_of_mem c hh)
    simp only [List.cons_append, stripUnder, List.takeWhile_cons]
    rw [if_pos (by simpa using hc)]
    exact congrArg (c :: ·) (ih ht)

/-! ### Serializer: per-field and per-line emission -/

theorem genList_append (a b : List Pv) (d : Nat) :
    genList (a ++ b) d = genList a d ++ genList b d := by
  induction a with
  | nil => rfl
  | cons x r ih => simp only [List.cons_append, genList, List.append_eq, ih, List.append_assoc]

theorem leafRun (parts : List (List Char)) (d : Nat) (hp : ∀ p ∈ parts, p ≠ ['|']) :
    genList (parts.map Pv.s) d = (parts.map (fun p => p ++ leafSep d)).flatten := by
  induction parts with
  | nil => rfl
  | cons a t ih =>
    simp only [List.map_cons, genList, genItem, List.flatten_cons]
    rw [if_neg (hp a (List.mem_cons_self a t)), ih (fun p hp2 => hp p (List.mem_cons_of_mem a hp2))]

theorem genListLeaves (d : Nat) (sc : Char) (hd : leafSep d = [sc]) (parts : List (List Char))
    (hne : parts ≠ []) (hp : ∀ p ∈ parts, p ≠ ['|']) :
    (genList (parts.map Pv.s) d).dropLast = joinSep sc parts := by
  rw [leafRun parts d hp, hd, flatten_map_snoc sc parts hne, List.dropLast_concat]

theorem repRun (reps : List (List Char)) (hp : ∀ rep ∈ reps, '|' ∉ rep) :
    genList (reps.map (fun rep => Pv.l ((pysplit '^' rep).map Pv.s))) 2
      = (reps.map (fun rep => rep ++ ['~'])).flatten := by
  induction reps with
  | nil => rfl
  | cons a t ih =>
    simp only [List.map_cons, genList, genItem, List.flatten_cons]
    have ha : '|' ∉ a := hp a (List.mem_cons_self a t)
    have hcomps : ∀ p ∈ pysplit '^' a, p ≠ ['|'] := by
      intro p hmem hpb
      exact not_mem_of_mem_pysplit '^' '|' a ha p hmem (hpb ▸ List.mem_singleton_self '|')
    rw [genListLeaves 3 '^' rfl (pysplit '^' a) (pysplit_ne_nil '^' a) hcomps,
      joinSep_pysplit '^' a, ih (fun rep hmem => hp rep (List.mem_cons_of_mem a hmem))]
    rfl

theorem fieldEmit (f : List Char) (hf : '|' ∉ f) :
    genList (parseField f) 1 = f ++ ['|'] := by
  by_cases henc : f = encChars
  · subst henc
    rfl
  · by_cases hrep : '~' ∈ f
    · rw [parseField, if_neg henc, if_pos hrep]
      have hreps : ∀ rep ∈ pysplit '~' f, '|' ∉ rep :=
        not_mem_of_mem_pysplit '~' '|' f hf
      simp only [genList, genItem, List.append_nil]
      rw [repRun (pysplit '~' f) hreps,
        flatten_map_snoc '~' (pysplit '~' f) (pysplit_ne_nil '~' f), List.dropLast_concat,
        joinSep_pysplit '~' f]
      rfl
    · by_cases hone : (pysplit '^' f).length = 1
      · rw [parseField, if_neg henc, if_neg hrep, if_pos hone, pysplit_len_one '^' f hone]
        have hfp : f ≠ ['|'] := fun hh => hf (hh ▸ List.mem_singleton_self '|')
        simp only [List.map_cons, List.map_nil, genList, genItem, List.append_nil]
        rw [if_neg hfp]
        rfl
      · rw [parseField, if_neg henc, if_neg hrep, if_neg hone]
        have hcomps : ∀ p ∈ pysplit '^' f, p ≠ ['|'] := by
          intro p hmem hpb
          exact not_mem_of_mem_pysplit '^' '|' f hf p hmem (hpb ▸ List.mem_singleton_self '|')
        simp only [genList, genItem, List.append_nil]
        rw [genListLeaves 2 '^' rfl (pysplit '^' f) (pysplit_ne_nil '^' f) hcomps,
          joinSep_pysplit '^' f]
        rfl

theorem bodyRun (fields : List (List Char)) (hp : ∀ f ∈ fields, '|' ∉ f) :
    genList (fields.flatMap parseField) 1 = (fields.map (fun f => f ++ ['|'])).flatten := by
  induction fields with
  | nil => rfl
  | cons a t ih =>
    rw [List.flatMap_cons, genList_append, fieldEmit a (hp a (List.mem_cons_self a t)),
      ih (fun f hmem => hp f (List.mem_cons_of_mem a hmem)), List.map_cons, List.flatten_cons]

theorem segBodyEmit (line : List Char) (hlen : 2 ≤ (pysplit '|' line).length) :
    genHl7 (parseSegBody line) 1 = joinSep '|' (segFields line) ++ ['\n'] := by
  have htail : segFields line ≠ [] := by
    rcases h : pysplit '|' line with _ | ⟨a, t⟩
    · exact absurd h (pysplit_ne_nil '|' line)
    · rw [h] at hlen
      cases t with
      | nil => simp at hlen
      | cons b r => simp [segFields, h]
  have hmem : ∀ f ∈ segFields line, '|' ∉ f := fun f hmem =>
    sep_not_mem_pysplit '|' line f (List.mem_of_mem_tail hmem)
  rw [genHl7, parseSegBody, bodyRun (segFields line) hmem,
    flatten_map_snoc '|' (segFields line) htail, List.dropLast_concat]
  rfl

theorem lineEmit (line : List Char) (hlen : 2 ≤ (pysplit '|' line).length) :
    segIdOf line ++ '|' :: joinSep '|' (segFields line) = line := by
  have htail : segFields line ≠ [] := by
    rcases h : pysplit '|' line with _ | ⟨a, t⟩
    · exact absurd h (pysplit_ne_nil '|' line)
    · rw [h] at hlen
      cases t with
      | nil => simp at hlen
      | cons b r => simp [segFields, h]
  have hj := joinSep_pysplit '|' line
  rw [pysplit_eq_cons '|' line,
    joinSep_cons '|' ((pysplit '|' line).headI) ((pysplit '|' line).tail) htail] at hj
  exact hj

/-! ### Characterization of the segment disambiguator -/

theorem lookupA_append_found (seen : List (List Char × Nat)) (l2 : List (List Char × Nat))
    (id : List Char) (n : Nat) (h : lookupA seen id = some n) :
    lookupA (seen ++ l2) id = some n := by
  induction seen with
  | nil => simp [lookupA] at h
  | cons kv rest ih =>
    obtain ⟨k, v⟩ := kv
    simp only [lookupA, List.cons_append] at h ⊢
    split at h
    · rename_i hk
      rw [if_pos hk]
      exact h
    · rename_i hk
      rw [if_neg hk]
      exact ih h

theorem lookupA_append_self (seen : List (List Char × Nat)) (id : List Char) (v : Nat)
    (h : lookupA seen id = none) : lookupA (seen ++ [(id, v)]) id = some v := by
  induction seen with
  | nil => simp [lookupA]
  | cons kv rest ih =>
    obtain ⟨k, n⟩ := kv
    simp only [lookupA, List.cons_append] at h ⊢
    split at h
    · simp at h
    · rename_i hk
      rw [if_neg hk]
      exact ih h

theorem lookupA_append_other (seen : List (List Char × Nat)) (id id' : List Char) (v : Nat)
    (h : id' ≠ id) : lookupA (seen ++ [(id, v)]) id' = lookupA seen id' := by
  induction seen with
  | nil => simp [lookupA, Ne.symm h]
  | cons kv rest ih =>
    obtain ⟨k, n⟩ := kv
    simp only [lookupA, List.cons_append]
    split
    · rfl
    · exact ih

theorem lookupA_setA_self (seen : List (List Char × Nat)) (id : List Char) (n v : Nat)
    (h : lookupA seen id = some n) : lookupA (setA seen id v) id = some v := by
  induction seen with
  | nil => simp [lookupA] at h
  | cons kv rest ih =>
    obtain ⟨k, m⟩ := kv
    simp only [lookupA, setA] at h ⊢
    split at h
    · rename_i hk
      rw [if_pos hk]
      simp only [lookupA]
      rw [if_pos hk]
    · rename_i hk
      rw [if_neg hk]
      simp only [lookupA]
      rw [if_neg hk]
      exact ih h

theorem lookupA_setA_other (seen : List (List Char × Nat)) (id id' : List Char) (v : Nat)
    (h : id' ≠ id) : lookupA (setA seen id v) id' = lookupA seen id' := by
  induction seen with
  | nil => simp [lookupA, setA]
  | cons kv rest ih =>
    obtain ⟨k, m⟩ := kv
    simp only [lookupA, setA]
    by_cases hk : k = id
    · rw [if_pos hk]
      simp only [lookupA]
      rw [if_neg (by rw [hk]; exact fun hh => h hh.symm),
        if_neg (by rw [hk]; exact fun hh => h hh.symm)]
    · rw [if_neg hk]
      simp only [lookupA]
      split
      · rfl
      · exact ih

theorem sortSegmentsAux_renameFrom :
    ∀ (rest : List (List Char)) (seen : List (List Char × Nat)) (pre : List (List Char)),
    (∀ id, lookupA seen id = if pre.count id = 0 then none else some (pre.count id - 1)) →
    sortSegmentsAux rest seen = renameFrom pre rest := by
  intro rest
  induction rest with
  | nil => intro seen pre _; rfl
  | cons id r ih =>
    intro seen pre hinv
    have hid := hinv id
    simp only [sortSegmentsAux, renameFrom]
    by_cases hc : pre.count id = 0
    · rw [if_pos hc] at hid
      rw [hid, if_pos hc]
      refine congrArg (id :: ·) (ih (seen ++ [(id, 0)]) (pre ++ [id]) ?_)
      intro id'
      by_cases hii : id' = id
      · subst hii
        rw [lookupA_append_self seen id' 0 hid]
        simp [List.count_append, hc]
      · rw [lookupA_append_other seen id id' 0 hii]
        rw [hinv id']
        have : (pre ++ [id]).count id' = pre.count id' := by
          simp [List.count_append, List.count_singleton]
          intro hcon
          exact absurd hcon.symm hii
        rw [this]
    · rw [if_neg hc] at hid
      have hn1 : pre.count id - 1 + 1 = pre.count id := by omega
      rw [hid, if_neg hc]
      show (id ++ '_' :: natRepr (pre.count id - 1 + 1)) ::
          sortSegmentsAux r (setA seen id (pre.count id - 1 + 1)) = _
      rw [hn1]
      refine congrArg _ (ih (setA seen id (pre.count id)) (pre ++ [id]) ?_)
      intro id'
      by_cases hii : id' = id
      · subst hii
        rw [lookupA_setA_self seen id' (pre.count id' - 1) _ hid]
        have hcnt : (pre ++ [id']).count id' = pre.count id' + 1 := by
          simp [List.count_append]
        rw [hcnt, if_neg (by omega)]
        congr 1
      · rw [lookupA_setA_other seen id id' _ hii, hinv id']
        have : (pre ++ [id]).count id' = pre.count id' := by
          simp [List.count_append, List.count_singleton]
          intro hcon
          exact absurd hcon.symm hii
        rw [this]

theorem sortSegments_renameFrom (ids : List (List Char)) :
    sortSegments ids = renameFrom [] ids := by
  refine sortSegmentsAux_renameFrom ids [] [] ?_
  intro id
  simp [lookupA]

theorem renameFrom_length (pre rest : List (List Char)) :
    (renameFrom pre rest).length = rest.length := by
  induction rest generalizing pre with
  | nil => rfl
  | cons id r ih => simp only [renameFrom, List.length_cons, ih]

theorem map_stripUnder_renameFrom (rest : List (List Char)) :
    ∀ (pre : List (List Char)), (∀ id ∈ rest, '_' ∉ id) →
    (renameFrom pre rest).map stripUnder = rest := by
  induction rest with
  | nil => intro pre _; rfl
  | cons id r ih =>
    intro pre h
    have hid : '_' ∉ id := h id (List.mem_cons_self id r)
    simp only [renameFrom, List.map_cons]
    rw [ih (pre ++ [id]) (fun x hx => h x (List.mem_cons_of_mem id hx))]
    split
    · rw [stripUnder_no_under id hid]
    · rw [stripUnder_append_under id _ hid]

/-! ### Top-level serializer loop and round trip -/

theorem genTopAux_go (allL : List (List Char)) (table : List (List Char))
    (hlen : table.length = allL.length)
    (hid : table.map stripUnder = allL.map segIdOf)
    (hwf : ∀ L ∈ allL, 2 ≤ (pysplit '|' L).length) :
    ∀ (rest : List (List Char)) (p : Nat), rest = allL.drop p →
    genTopAux (rest.map (fun L => Pv.l (parseSegBody L))) table p
      = (rest.map (fun L => L ++ ['\n'])).flatten := by
  intro rest
  induction rest with
  | nil => intro p _; rfl
  | cons L rest' ih =>
    intro p hdrop
    have hp : p < allL.length := by
      by_contra hcon
      rw [List.drop_eq_nil_of_le (by omega)] at hdrop
      exact List.noConfusion hdrop
    have hget : allL.drop p = allL.get ⟨p, hp⟩ :: allL.drop (p + 1) := List.drop_eq_get_cons hp
    rw [hget] at hdrop
    obtain ⟨hL, hrest'⟩ := List.cons.inj hdrop
    have hmemL : L ∈ allL := hL ▸ List.get_mem allL p hp
    have hplen : p < table.length := by omega
    have htp : table.getD p [] = table.get ⟨p, hplen⟩ := List.getD_eq_get table [] hplen
    have hstrip : stripUnder (table.get ⟨p, hplen⟩) = segIdOf L := by
      have h1 := congrArg (fun l => l.get? p) hid
      simp only [List.get?_map] at h1
      rw [List.get?_eq_get hplen, List.get?_eq_get hp] at h1
      simp only [Option.map_some'] at h1
      rw [hL]
      exact Option.some.inj h1
    simp only [List.map_cons, genTopAux]
    rw [htp, hstrip, segBodyEmit L (hwf L hmemL), List.flatten_cons]
    have hline := lineEmit L (hwf L hmemL)
    cases rest' with
    | nil =>
      conv_rhs => rw [← hline]
      simp [genTopAux]
    | cons M rest'' =>
      have hlt : p < table.length - 1 := by
        have : allL.drop (p + 1) ≠ [] := by rw [← hrest']; simp
        have : p + 1 < allL.length := by
          by_contra hcon
          rw [List.drop_eq_nil_of_le (by omega)] at this
          exact this rfl
        omega
      rw [if_pos hlt, ih (p + 1) hrest']
      conv_rhs => rw [← hline]
      simp

theorem joinSep_splitLines (text : List Char) :
    joinSep '\n' (splitLines text) = stripNl text := by
  by_cases h0 : text = []
  · subst h0; rfl
  · by_cases hlast : text.getLast? = some '\n'
    · have hsplit : text = text.dropLast ++ ['\n'] := by
        have hg := List.dropLast_append_getLast h0
        rw [List.getLast?_eq_getLast text h0] at hlast
        rw [Option.some.inj hlast] at hg
        exact hg.symm
      rw [splitLines, if_neg h0, if_pos hlast, stripNl, if_pos hlast]
      have hps : pysplit '\n' text = pysplit '\n' text.dropLast ++ [[]] := by
        conv_lhs => rw [hsplit]
        exact pysplit_snoc_sep '\n' text.dropLast
      rw [hps, List.dropLast_concat, joinSep_pysplit]
    · rw [splitLines, if_neg h0, if_neg hlast, stripNl, if_neg hlast, joinSep_pysplit]

theorem splitLines_ne_nil (text : List Char) (h0 : text ≠ []) : splitLines text ≠ [] := by
  rw [splitLines, if_neg h0]
  split
  · rename_i hlast
    have hsplit : text = text.dropLast ++ ['\n'] := by
      have hg := List.dropLast_append_getLast h0
      rw [List.getLast?_eq_getLast text h0] at hlast
      rw [Option.some.inj hlast] at hg
      exact hg.symm
    have hps : pysplit '\n' text = pysplit '\n' text.dropLast ++ [[]] := by
      conv_lhs => rw [hsplit]
      exact pysplit_snoc_sep '\n' text.dropLast
    rw [hps, List.dropLast_concat]
    exact pysplit_ne_nil '\n' text.dropLast
  · exact pysplit_ne_nil '\n' text

theorem roundTrip (text : List Char) (hwf : wellFormed text) :
    genHl7Top (segTable text) (hl7ToList text) = stripNl text := by
  obtain ⟨-, hlines⟩ := hwf
  have hids : ∀ id ∈ (splitLines text).map segIdOf, '_' ∉ id := by
    intro id hmem
    rw [List.mem_map] at hmem
    obtain ⟨L, hL, rfl⟩ := hmem
    exact (hlines L hL).2
  have htable : segTable text = renameFrom [] ((splitLines text).map segIdOf) := by
    rw [segTable, rawSegIds, sortSegments_renameFrom]
  have hlen : (segTable text).length = (splitLines text).length := by
    rw [htable, renameFrom_length, List.length_map]
  have hid : (segTable text).map stripUnder = (splitLines text).map segIdOf := by
    rw [htable, map_stripUnder_renameFrom _ [] hids]
  have hwf2 : ∀ L ∈ splitLines text, 2 ≤ (pysplit '|' L).length := fun L hL => (hlines L hL).1
  have hgo := genTopAux_go (splitLines text) (segTable text) hlen hid hwf2
    (splitLines text) 0 (by rw [List.drop_zero])
  rw [genHl7Top, hl7ToList, hgo]
  by_cases hnil : splitLines text = []
  · have h0 : text = [] := by
      by_contra hcon
      exact splitLines_ne_nil text hcon hnil
    subst h0
    rfl
  · rw [flatten_map_snoc '\n' _ hnil, List.dropLast_concat]
    have hend : endSep 0 = [] := rfl
    rw [hend, List.append_nil, joinSep_splitLines]

/-! ### Array-view (JSON) round trip -/

theorem insertReplace_fresh {β : Type} (d : List (List Char × β)) (k : List Char) (v : β)
    (h : k ∉ d.map Prod.fst) : insertReplace d k v = d ++ [(k, v)] := by
  induction d with
  | nil => rfl
  | cons kv rest ih =>
    obtain ⟨k0, v0⟩ := kv
    simp only [List.map_cons, List.mem_cons] at h
    push_neg at h
    simp only [insertReplace, List.cons_append]
    rw [if_neg (fun hh => h.1 hh.symm), ih h.2]

theorem nodup_get_not_mem_take (segs : List (List Char)) (p : Nat) (hp : p < segs.length)
    (hnd : segs.Nodup) : segs.get ⟨p, hp⟩ ∉ segs.take p := by
  have htake : (segs.take p).concat (segs.get ⟨p, hp⟩) = segs.take (p + 1) := by
    rw [← List.take_concat_get segs p hp]
    rfl
  have hnd2 : (segs.take (p + 1)).Nodup := (List.take_sublist (p + 1) segs).nodup hnd
  rw [← htake, List.concat_eq_append, List.nodup_append] at hnd2
  exact List.disjoint_singleton.mp hnd2.2.2

theorem listToJsonAux_zip :
    ∀ (items : List Pv) (segs : List (List Char)) (p : Nat) (dict : List (List Char × List Pv)),
    p + items.length = segs.length → segs.Nodup → dict.map Prod.fst = segs.take p →
    listToJsonAux items segs p dict = dict ++ (segs.drop p).zip (items.map jsonValItems) := by
  intro items
  induction items with
  | nil =>
    intro segs p dict hlen _ _
    have : segs.drop p = [] := List.drop_eq_nil_of_le (by simp at hlen; omega)
    simp [listToJsonAux, this]
  | cons item rest ih =>
    intro segs p dict hlen hnd hkeys
    have hp : p < segs.length := by simp at hlen; omega
    have hkey : segs.getD p [] = segs.get ⟨p, hp⟩ := List.getD_eq_get segs [] hp
    have hfresh : segs.get ⟨p, hp⟩ ∉ dict.map Prod.fst := by
      rw [hkeys]
      exact nodup_get_not_mem_take segs p hp hnd
    simp only [listToJsonAux]
    rw [hkey, insertReplace_fresh dict _ _ hfresh]
    rw [ih segs (p + 1) (dict ++ [(segs.get ⟨p, hp⟩, jsonValItems item)])
      (by simp at hlen ⊢; omega) hnd
      (by rw [List.map_append, hkeys]
          simp only [List.map_cons, List.map_nil]
          rw [← List.concat_eq_append]
          exact List.take_concat_get segs p hp)]
    rw [List.drop_eq_get_cons hp, List.map_cons, List.zip_cons_cons, List.append_assoc]
    rfl

theorem list_to_json_zip (segs : List (List Char)) (elist : List Pv)
    (hlen : elist.length = segs.length) (hnd : segs.Nodup) :
    list_to_json segs elist = segs.zip (elist.map jsonValItems) := by
  rw [list_to_json, listToJsonAux_zip elist segs 0 [] (by omega) hnd (by simp)]
  simp

theorem map_pvl_snd_zip (a : List (List Char)) :
    ∀ (b : List (List Pv)), a.length = b.length →
    (a.zip b).map (fun kv => Pv.l kv.2) = b.map Pv.l := by
  induction a with
  | nil =>
    intro b hlen
    have : b = [] := List.eq_nil_of_length_eq_zero (by simp at hlen; omega)
    subst this
    rfl
  | cons x r ih =>
    intro b hlen
    cases b with
    | nil => simp at hlen
    | cons y t =>
      simp only [List.zip_cons_cons, List.map_cons]
      rw [ih t (by simp at hlen; omega)]

theorem genJsonList_map_s (l : List (List Char)) :
    genJsonList (l.map Pv.s) = l.map Pv.s := by
  induction l with
  | nil => rfl
  | cons a t ih => simp only [List.map_cons, genJsonList, genJsonPv, ih]

theorem rfList_map_s (l : List (List Char)) : rfList (l.map Pv.s) = l.map Pv.s := by
  induction l with
  | nil => rfl
  | cons a t ih => simp only [List.map_cons, rfList, rfPv, ih]

theorem rf_genJson_leafNode (l : List (List Char)) :
    rfPv (genJsonPv (Pv.l (l.map Pv.s))) = Pv.l (l.map Pv.s) := by
  show rfPv (Pv.l (Pv.s [] :: genJsonList (l.map Pv.s))) = Pv.l (l.map Pv.s)
  rw [genJsonList_map_s]
  show Pv.l (rfList (l.map Pv.s)) = Pv.l (l.map Pv.s)
  rw [rfList_map_s]

theorem rf_genJson_repList (reps : List (List Char)) :
    rfList (genJsonList (reps.map (fun r => Pv.l ((pysplit '^' r).map Pv.s))))
      = reps.map (fun r => Pv.l ((pysplit '^' r).map Pv.s)) := by
  induction reps with
  | nil => rfl
  | cons a t ih =>
    simp only [List.map_cons, genJsonList, rfList]
    rw [rf_genJson_leafNode (pysplit '^' a), ih]

theorem genJsonList_append (a b : List Pv) :
    genJsonList (a ++ b) = genJsonList a ++ genJsonList b := by
  induction a with
  | nil => rfl
  | cons x r ih => simp only [List.cons_append, genJsonList, List.append_eq, ih]

theorem rfList_append (a b : List Pv) : rfList (a ++ b) = rfList a ++ rfList b := by
  induction a with
  | nil => rfl
  | cons x r ih => simp only [List.cons_append, rfList, List.append_eq, ih]

theorem rf_genJson_field (f : List Char) :
    rfList (genJsonList (parseField f)) = parseField f := by
  by_cases henc : f = encChars
  · subst henc
    rfl
  · by_cases hrep : '~' ∈ f
    · rw [parseField, if_neg henc, if_pos hrep]
      simp only [genJsonList, rfList, genJsonPv]
      show Pv.l (rfList (genJsonList ((pysplit '~' f).map
          (fun rep => Pv.l ((pysplit '^' rep).map Pv.s))))) :: rfList [] = _
      rw [rf_genJson_repList (pysplit '~' f)]
      rfl
    · by_cases hone : (pysplit '^' f).length = 1
      · rw [parseField, if_neg henc, if_neg hrep, if_pos hone, pysplit_len_one '^' f hone]
        rfl
      · rw [parseField, if_neg henc, if_neg hrep, if_neg hone]
        simp only [genJsonList, rfList]
        rw [rf_genJson_leafNode (pysplit '^' f)]

theorem rf_genJson_body (body : List (List Char)) :
    rfList (genJsonList (body.flatMap parseField)) = body.flatMap parseField := by
  induction body with
  | nil => rfl
  | cons a t ih =>
    rw [List.flatMap_cons, genJsonList_append, rfList_append, rf_genJson_field a, ih]

theorem rf_json_elist (lines : List (List Char)) :
    rfList (((lines.map (fun L => Pv.l (parseSegBody L))).map jsonValItems).map Pv.l)
      = lines.map (fun L => Pv.l (parseSegBody L)) := by
  induction lines with
  | nil => rfl
  | cons L t ih =>
    simp only [List.map_cons, rfList]
    rw [ih]
    show Pv.l (rfList (genJsonList (parseSegBody L))) :: _ = _
    rw [parseSegBody, rf_genJson_body (segFields L)]

theorem sortSegments_length (ids : List (List Char)) :
    (sortSegments ids).length = ids.length := by
  rw [sortSegments_renameFrom, renameFrom_length]

theorem jsonRoundTrip (text : List Char) (hnd : (segTable text).Nodup) :
    json_to_list (list_to_json (segTable text) (hl7ToList text)) = hl7ToList text := by
  have hlen : (hl7ToList text).length = (segTable text).length := by
    rw [hl7ToList, segTable, rawSegIds, sortSegments_length, List.length_map, List.length_map]
  rw [list_to_json_zip (segTable text) (hl7ToList text) hlen hnd, json_to_list,
    map_pvl_snd_zip (segTable text) ((hl7ToList text).map jsonValItems) (by simp [hlen])]
  rw [hl7ToList]
  exact rf_json_elist (splitLines text)

/-! ### Pointwise characterization and uniqueness of the segment table -/

theorem renameFrom_getD :
    ∀ (rest pre : List (List Char)) (i : Nat), i < rest.length →
    (renameFrom pre rest).getD i [] =
      (if ((pre ++ rest.take i).count (rest.getD i [])) = 0 then rest.getD i []
       else rest.getD i [] ++ '_' :: natRepr ((pre ++ rest.take i).count (rest.getD i []))) := by
  intro rest
  induction rest with
  | nil => intro pre i h; simp at h
  | cons id r ih =>
    intro pre i h
    cases i with
    | zero =>
      simp only [renameFrom, List.getD, List.take_zero, List.append_nil]
      rfl
    | succ j =>
      have hj : j < r.length := by simp at h; omega
      have h1 := ih (pre ++ [id]) j hj
      simp only [renameFrom]
      show (renameFrom (pre ++ [id]) r).getD j [] = _
      rw [h1]
      have htk : (pre ++ [id]) ++ r.take j = pre ++ (id :: r).take (j + 1) := by
        simp [List.take_succ_cons]
      rw [htk]
      rfl

theorem sortSegments_getD (ids : List (List Char)) (i : Nat) (h : i < ids.length) :
    (sortSegments ids).getD i [] =
      (if ((ids.take i).count (ids.getD i [])) = 0 then ids.getD i []
       else ids.getD i [] ++ '_' :: natRepr ((ids.take i).count (ids.getD i []))) := by
  rw [sortSegments_renameFrom, renameFrom_getD ids [] i h]
  simp

theorem count_take_succ_self (ids : List (List Char)) (i : Nat) (h : i < ids.length) :
    (ids.take (i + 1)).count (ids.getD i []) = (ids.take i).count (ids.getD i []) + 1 := by
  have hg : ids.getD i [] = ids.get ⟨i, h⟩ := List.getD_eq_get ids [] h
  have htk : ids.take (i + 1) = ids.take i ++ [ids.get ⟨i, h⟩] := by
    rw [← List.concat_eq_append]
    exact (List.take_concat_get ids i h).symm
  rw [htk, List.count_append, hg]
  simp

theorem count_take_le (ids : List (List Char)) (a : List Char) (i j : Nat) (hij : i ≤ j) :
    (ids.take i).count a ≤ (ids.take j).count a := by
  have hsub : (ids.take i).Sublist (ids.take j) := by
    have : (ids.take j).take i = ids.take i := by
      rw [List.take_take]
      congr 1
      omega
    rw [← this]
    exact List.take_sublist i (ids.take j)
  exact hsub.count_le a

theorem count_take_lt (ids : List (List Char)) (i j : Nat) (hij : i < j) (hj : j ≤ ids.length)
    (heq : ids.getD i [] = ids.getD j []) :
    (ids.take i).count (ids.getD i []) < (ids.take j).count (ids.getD j []) := by
  have hi : i < ids.length := by omega
  have h1 := count_take_succ_self ids i hi
  have h2 : (ids.take (i + 1)).count (ids.getD i []) ≤ (ids.take j).count (ids.getD i []) :=
    count_take_le ids (ids.getD i []) (i + 1) j (by omega)
  rw [← heq]
  omega

theorem sortSegments_nodup (ids : List (List Char)) (h : ∀ id ∈ ids, '_' ∉ id) :
    (sortSegments ids).Nodup := by
  rw [List.nodup_iff_get?_ne_get?]
  intro i j hij hj hcon
  have hjlen : j < ids.length := by rw [← sortSegments_length ids]; exact hj
  have hilen : i < ids.length := by omega
  have hi' : i < (sortSegments ids).length := by rw [sortSegments_length]; omega
  have hgi : (sortSegments ids).get? i = some ((sortSegments ids).getD i []) := by
    rw [List.getD_eq_getD_get?]
    rw [List.get?_eq_get hi']
    rfl
  have hgj : (sortSegments ids).get? j = some ((sortSegments ids).getD j []) := by
    rw [List.getD_eq_getD_get?]
    rw [List.get?_eq_get hj]
    rfl
  rw [hgi, hgj] at hcon
  have heq := Option.some.inj hcon
  rw [sortSegments_getD ids i hilen, sortSegments_getD ids j hjlen] at heq
  have hmi : ids.getD i [] ∈ ids := by
    rw [List.getD_eq_get ids [] hilen]
    exact List.get_mem ids i hilen
  have hmj : ids.getD j [] ∈ ids := by
    rw [List.getD_eq_get ids [] hjlen]
    exact List.get_mem ids j hjlen
  have hui : '_' ∉ ids.getD i [] := h _ hmi
  have huj : '_' ∉ ids.getD j [] := h _ hmj
  by_cases hci : (ids.take i).count (ids.getD i []) = 0 <;>
    by_cases hcj : (ids.take j).count (ids.getD j []) = 0
  · rw [if_pos hci, if_pos hcj] at heq
    have := count_take_lt ids i j hij (by omega) heq
    omega
  · rw [if_pos hci, if_neg hcj] at heq
    have : '_' ∈ ids.getD j [] ++ '_' :: natRepr ((ids.take j).count (ids.getD j [])) := by
      rw [List.mem_append]
      right
      exact List.mem_cons_self _ _
    rw [← heq] at this
    exact hui this
  · rw [if_neg hci, if_pos hcj] at heq
    have : '_' ∈ ids.getD i [] ++ '_' :: natRepr ((ids.take i).count (ids.getD i [])) := by
      rw [List.mem_append]
      right
      exact List.mem_cons_self _ _
    rw [heq] at this
    exact huj this
  · rw [if_neg hci, if_neg hcj] at heq
    obtain ⟨hid, hcnt⟩ := under_append_inj _ _ _ _ hui huj heq
    have hcnt' := natRepr_inj _ _ hcnt
    have := count_take_lt ids i j hij (by omega) hid
    omega

/-! ### Claim theorems -/

/-- C1: for every well-formed HL7 message text, serializing the parser's tree
(`list_to_hl7` after `hl7_to_list`) reproduces the original raw text modulo
trailing whitespace: the output is exactly the input with a single trailing
newline removed. -/
theorem c1_parse_serialize_round_trip (text : List Char) (hwf : wellFormed text) :
    genHl7Top (segTable text) (hl7ToList text) = stripNl text :=
  roundTrip text hwf

/-- C1 witness: the round trip evaluated on a concrete two-segment message. -/
theorem c1_parse_serialize_round_trip_witness :
    wellFormed (chars "MSH|^~\\&|App|Fac\nEVN|A01|20110613083617\n") ∧
    genHl7Top (segTable (chars "MSH|^~\\&|App|Fac\nEVN|A01|20110613083617\n"))
        (hl7ToList (chars "MSH|^~\\&|App|Fac\nEVN|A01|20110613083617\n"))
      = stripNl (chars "MSH|^~\\&|App|Fac\nEVN|A01|20110613083617\n") :=
  ⟨by decide, c1_parse_serialize_round_trip _ (by decide)⟩

/-- C2 counterexample: on the end-to-end input the flat mapping does not
contain the claimed entry `MSH.1 -> "^~\&"`; instead `MSH.1` maps to `"|"`,
because the parser inserts a `'|'` filler item before the preserved
encoding-characters leaf. -/
theorem c2_counterexample :
    (chars "MSH.1", encChars) ∉ hl7Dict (chars "MSH|^~\\&|App|Fac\nEVN|A01|20110613083617\n") ∧
    (chars "MSH.1", chars "|") ∈ hl7Dict (chars "MSH|^~\\&|App|Fac\nEVN|A01|20110613083617\n") := by
  decide

set_option maxHeartbeats 4000000 in
/-- C2 (amended): the input parses into the two segments `MSH` and `EVN`; the
flat mapping is `MSH.1 -> "|"`, `MSH.2 -> "^~\&"`, `MSH.3 -> "App"`,
`MSH.4 -> "Fac"`, `EVN.1 -> "A01"`, `EVN.2 -> "20110613083617"`; and the
message re-serializes to the original text with its trailing newline removed. -/
theorem c2_end_to_end_amended :
    segTable (chars "MSH|^~\\&|App|Fac\nEVN|A01|20110613083617\n")
      = [chars "MSH", chars "EVN"] ∧
    hl7Dict (chars "MSH|^~\\&|App|Fac\nEVN|A01|20110613083617\n")
      = [(chars "MSH.1", chars "|"), (chars "MSH.2", encChars), (chars "MSH.3", chars "App"),
         (chars "MSH.4", chars "Fac"), (chars "EVN.1", chars "A01"),
         (chars "EVN.2", chars "20110613083617")] ∧
    genHl7Top (segTable (chars "MSH|^~\\&|App|Fac\nEVN|A01|20110613083617\n"))
        (hl7ToList (chars "MSH|^~\\&|App|Fac\nEVN|A01|20110613083617\n"))
      = chars "MSH|^~\\&|App|Fac\nEVN|A01|20110613083617" := by
  refine ⟨by decide, by decide, by decide⟩

/-- C3 counterexample: a message whose only field is the encoding-characters
literal parses to a segment with two leaves (`'|'` and `'^~\&'`), so the field
does not appear as exactly one leaf in the tree. -/
theorem c3_counterexample :
    hl7ToList (chars "MSH|^~\\&") = [Pv.l [Pv.s (chars "|"), Pv.s encChars]] ∧
    countLeaves (hl7ToList (chars "MSH|^~\\&")) = 2 := by
  decide

/-- C3 (amended): a field equal to the encoding-characters literal is kept as
the single unsplit leaf `^~\&`, but preceded by an inserted filler leaf `|`
(skipped at serialization); the message still round-trips to its raw text
modulo the trailing newline. -/
theorem c3_enc_field_amended (text line f : List Char) (hwf : wellFormed text)
    (hline : line ∈ splitLines text) (hf : f ∈ segFields line) (henc : f = encChars) :
    parseField f = [Pv.s (chars "|"), Pv.s encChars] ∧
    genHl7Top (segTable text) (hl7ToList text) = stripNl text := by
  subst henc
  exact ⟨by decide, roundTrip text hwf⟩

/-- C3 witness: the amended statement evaluated on the end-to-end message with
its encoding-characters field. -/
theorem c3_enc_field_amended_witness :
    wellFormed (chars "MSH|^~\\&|App|Fac\nEVN|A01|20110613083617\n") ∧
    chars "MSH|^~\\&|App|Fac" ∈ splitLines (chars "MSH|^~\\&|App|Fac\nEVN|A01|20110613083617\n") ∧
    encChars ∈ segFields (chars "MSH|^~\\&|App|Fac") ∧
    parseField encChars = [Pv.s (chars "|"), Pv.s encChars] ∧
    genHl7Top (segTable (chars "MSH|^~\\&|App|Fac\nEVN|A01|20110613083617\n"))
        (hl7ToList (chars "MSH|^~\\&|App|Fac\nEVN|A01|20110613083617\n"))
      = stripNl (chars "MSH|^~\\&|App|Fac\nEVN|A01|20110613083617\n") := by
  refine ⟨by decide, by decide, by decide, ?_, ?_⟩ <;>
    exact (c3_enc_field_amended (chars "MSH|^~\\&|App|Fac\nEVN|A01|20110613083617\n")
      (chars "MSH|^~\\&|App|Fac") encChars (by decide) (by decide) (by decide) rfl).elim
      (fun h1 h2 => by first | exact h1 | exact h2)

set_option maxHeartbeats 4000000 in
/-- C4: `dict_to_list` does not reconstruct the parser's tree: on the message
`PID|A^B\nOBX|C^D` (two consecutive segments, each one component field), the
component buffer is not flushed at the segment boundary, so PID's components
are merged into OBX's and the rebuilt tree differs from the original. -/
theorem c4_dict_to_list_not_inverse :
    dict_to_list (hl7Dict (chars "PID|A^B\nOBX|C^D"))
      = [Pv.l [], Pv.l [Pv.l [Pv.s (chars "A"), Pv.s (chars "B"),
          Pv.s (chars "C"), Pv.s (chars "D")]]] ∧
    hl7ToList (chars "PID|A^B\nOBX|C^D")
      = [Pv.l [Pv.l [Pv.s (chars "A"), Pv.s (chars "B")]],
         Pv.l [Pv.l [Pv.s (chars "C"), Pv.s (chars "D")]]] ∧
    dict_to_list (hl7Dict (chars "PID|A^B\nOBX|C^D")) ≠ hl7ToList (chars "PID|A^B\nOBX|C^D") := by
  refine ⟨by decide, by decide, by decide⟩

set_option maxHeartbeats 4000000 in
/-- C5: when the segment identifier changes between consecutive mapping
entries `PID.1.2.1` and `OBX.1.1` (depth decreasing from 3 to 2),
`dict_to_list` flushes the still-open repetition-group buffer of PID into the
accumulator of the NEW segment OBX (`segments[segment_id].append(repeats_list)`
at `hl7.py` line 214), not into PID's: the rebuilt PID segment is empty and
OBX's first item is PID's repetition group. -/
theorem c5_boundary_flush_into_new_segment :
    dict_to_list (hl7Dict (chars "PID|A~B\nOBX|C^D"))
      = [Pv.l [], Pv.l [Pv.l [Pv.l [Pv.s (chars "A")], Pv.l [Pv.s (chars "B")]],
          Pv.l [Pv.s (chars "C"), Pv.s (chars "D")]]] ∧
    hl7ToList (chars "PID|A~B\nOBX|C^D")
      = [Pv.l [Pv.l [Pv.l [Pv.s (chars "A")], Pv.l [Pv.s (chars "B")]]],
         Pv.l [Pv.l [Pv.s (chars "C"), Pv.s (chars "D")]]] := by
  refine ⟨by decide, by decide⟩

/-- C6 counterexample: on a message whose raw segment identifiers collide
after disambiguation (`PID`, `PID`, `PID_1` all map to table entries
`PID`, `PID_1`, `PID_1`), the array view loses a segment and the round trip
back to the tree fails. -/
theorem c6_counterexample :
    json_to_list (list_to_json (segTable (chars "PID|a\nPID|b\nPID_1|c"))
        (hl7ToList (chars "PID|a\nPID|b\nPID_1|c")))
      ≠ hl7ToList (chars "PID|a\nPID|b\nPID_1|c") := by
  decide

/-- C6 (amended): for every message whose disambiguated segment table has
pairwise-distinct entries, converting the parsed tree to the array view
(`list_to_json`) and back (`json_to_list`) reproduces the tree exactly,
including repeated fields and single-leaf fields. -/
theorem c6_array_round_trip_amended (text : List Char) (hnd : (segTable text).Nodup) :
    json_to_list (list_to_json (segTable text) (hl7ToList text)) = hl7ToList text :=
  jsonRoundTrip text hnd

/-- C6 witness: the array-view round trip on a message with repeated fields
and single-leaf fields. -/
theorem c6_array_round_trip_amended_witness :
    (segTable (chars "MSH|a^b~c|d\nEVN|e")).Nodup ∧
    json_to_list (list_to_json (segTable (chars "MSH|a^b~c|d\nEVN|e"))
        (hl7ToList (chars "MSH|a^b~c|d\nEVN|e")))
      = hl7ToList (chars "MSH|a^b~c|d\nEVN|e") :=
  ⟨by decide, c6_array_round_trip_amended _ (by decide)⟩

/-- C7: the leaf-count/mapping-size invariant fails: the message
`PID|a\nPID|b\nPID_1|c` parses to a tree with 3 leaves, but its flat mapping
has only 2 entries, because the disambiguated table `[PID, PID_1, PID_1]`
repeats a key and the entry `PID_1.1` is overwritten. -/
theorem c7_leaf_count_mismatch :
    countLeaves (hl7ToList (chars "PID|a\nPID|b\nPID_1|c")) = 3 ∧
    (hl7Dict (chars "PID|a\nPID|b\nPID_1|c")).length = 2 := by
  decide

/-- C8: the disambiguator keeps the first occurrence of each identifier
unchanged and renames the k-th repeat to `<id>_k` (the entry at position `i`
is determined by how often the identifier occurs before position `i`); in
particular `[MSH, PID, PID, OBX]` yields `[MSH, PID, PID_1, OBX]` and the
empty sequence yields the empty table. -/
theorem c8_disambiguation_policy :
    (∀ (ids : List (List Char)) (i : Nat), i < ids.length →
      (sortSegments ids).getD i [] =
        (if ((ids.take i).count (ids.getD i [])) = 0 then ids.getD i []
         else ids.getD i [] ++ '_' :: natRepr ((ids.take i).count (ids.getD i [])))) ∧
    sortSegments [chars "MSH", chars "PID", chars "PID", chars "OBX"]
      = [chars "MSH", chars "PID", chars "PID_1", chars "OBX"] ∧
    sortSegments [] = [] :=
  ⟨sortSegments_getD, by decide, rfl⟩

/-- C8 witness: the pointwise policy evaluated at the second occurrence of a
repeated identifier. -/
theorem c8_disambiguation_policy_witness :
    1 < ([chars "PID", chars "PID"] : List (List Char)).length ∧
    (sortSegments [chars "PID", chars "PID"]).getD 1 [] =
      (if (([chars "PID", chars "PID"].take 1).count
            (([chars "PID", chars "PID"] : List (List Char)).getD 1 [])) = 0
       then ([chars "PID", chars "PID"] : List (List Char)).getD 1 []
       else ([chars "PID", chars "PID"] : List (List Char)).getD 1 [] ++
         '_' :: natRepr (([chars "PID", chars "PID"].take 1).count
            (([chars "PID", chars "PID"] : List (List Char)).getD 1 []))) :=
  ⟨by decide, c8_disambiguation_policy.1 [chars "PID", chars "PID"] 1 (by decide)⟩

/-- C9 counterexample: for the input identifiers `[PID, PID, PID_1]` the
disambiguator outputs `[PID, PID_1, PID_1]`, which has two equal entries. -/
theorem c9_counterexample :
    sortSegments [chars "PID", chars "PID", chars "PID_1"]
      = [chars "PID", chars "PID_1", chars "PID_1"] ∧
    ¬ (sortSegments [chars "PID", chars "PID", chars "PID_1"]).Nodup := by
  refine ⟨by decide, by decide⟩

/-- C9 (amended): for every input sequence of identifiers in which no
identifier contains an underscore, the SegmentTable produced by the
disambiguator has pairwise-distinct entries. -/
theorem c9_nodup_amended (ids : List (List Char)) (h : ∀ id ∈ ids, '_' ∉ id) :
    (sortSegments ids).Nodup :=
  sortSegments_nodup ids h

/-- C9 witness: distinctness of the table for a concrete sequence with a
repeated identifier. -/
theorem c9_nodup_amended_witness :
    (∀ id ∈ [chars "MSH", chars "PID", chars "PID"], '_' ∉ id) ∧
    (sortSegments [chars "MSH", chars "PID", chars "PID"]).Nodup :=
  ⟨by decide, c9_nodup_amended _ (by decide)⟩

/-- C10: `json_to_list` is a pure reader: it returns the object unchanged
together with the list reconstructed from `self.json` (so `elist`, `dict`,
`json` and `hl7_message` are identical before and after the call), and a
subsequent `list_to_hl7` still serializes the previously stored `elist`. -/
theorem c10_json_to_list_frame (o : HL7Obj) :
    HL7.jsonToList o = (o, json_to_list o.json) ∧
    ((HL7.jsonToList o).1).elist = o.elist ∧
    ((HL7.jsonToList o).1).dict = o.dict ∧
    ((HL7.jsonToList o).1).json = o.json ∧
    ((HL7.jsonToList o).1).hl7_message = o.hl7_message ∧
    HL7.listToHl7 (HL7.jsonToList o).1
      = { o with hl7 := some (genHl7Top o.segments o.elist) } :=
  ⟨rfl, rfl, rfl, rfl, rfl, rfl⟩
